import Mathlib

/-!
Verification of the bencode decoder (`src/lib.rs`).

The Rust source is shallowly embedded: byte slices become `List Nat`
(each element a byte value), `Result<_, ConvertError>` becomes the
`RResult` type below, and the one place where the Rust code can panic
(an unchecked slice index in `parse_str`) is modelled by an explicit
`panic` outcome.  `BTreeMap<&str, _>` is modelled as an association
list kept strictly sorted by key in lexicographic byte order, which is
exactly the iteration order of a `BTreeMap`.

The mutually recursive descent (`next_rule`, `parse_list`,
`parse_dict` and their loops) is embedded as the single function `run`
which is structurally recursive on an explicit fuel argument; modes
identify which Rust function body is being executed.  The termination
theorems below show that fuel `3 * |input| + 3` is always sufficient,
so the top-level `parse` instantiated with that fuel is a faithful
model of the (terminating) Rust recursion.
-/

namespace Bencode

/-- Error enum `ConvertError` from the source. -/
inductive ConvertError where
  | BufferTooShort
  | InvalidFormat
  | InvalidEncoding
  | PayloadTooBig
  | EOF
  deriving DecidableEq, Repr

/-- The value model `BencodeType`.  `String` carries the borrowed payload
bytes; `Dictionary` carries the `BTreeMap` contents as a key-sorted
association list. -/
inductive BencodeType where
  | Integer : Int → BencodeType
  | String : List Nat → BencodeType
  | List : List BencodeType → BencodeType
  | Dictionary : List (List Nat × BencodeType) → BencodeType

/-- `ParseResult` from the source: decoded value plus unconsumed remainder. -/
structure ParseResult where
  value : BencodeType
  next : List Nat

/-- Outcome of one parser call.  `ok`/`err` mirror `Result`; `panic` models
a Rust panic (out-of-range slice index); `nofuel` is the artefact of the
fuel-based embedding and is proved unreachable for sufficient fuel. -/
inductive RResult where
  | ok : ParseResult → RResult
  | err : ConvertError → RResult
  | panic : RResult
  | nofuel : RResult

/-- Outcome of the top-level `parse`, which returns only a value. -/
inductive PResult where
  | ok : BencodeType → PResult
  | err : ConvertError → PResult
  | panic : PResult
  | nofuel : PResult

/-- ASCII decimal digit test. -/
def isDigit (c : Nat) : Bool := decide (48 ≤ c ∧ c ≤ 57)

/-- ASCII byte test (`ascii::AsciiStr::from_ascii` succeeds iff all bytes < 128). -/
def isAscii (c : Nat) : Bool := decide (c < 128)

/-- Rust `Iterator::position`: index of the first element satisfying `p`. -/
def position (p : Nat → Bool) : List Nat → Option Nat
  | [] => none
  | x :: xs => if p x then some 0 else (position p xs).map (· + 1)

/-- Value of a big-endian list of ASCII digit bytes. -/
def digitsVal (l : List Nat) : Nat :=
  l.foldl (fun a c => a * 10 + (c - 48)) 0

/-- Rust `str::parse::<i32>` on the bytes of the string: an optional leading
`+` or `-` sign followed by one or more decimal digits, the value required
to fit in the signed 32-bit range. -/
def parseI32 (s : List Nat) : Option Int :=
  match s with
  | [] => none
  | c :: rest =>
    let neg := c == 45
    let ds := if c == 45 || c == 43 then rest else c :: rest
    if ds.isEmpty then none
    else if ds.all isDigit then
      let v0 : Int := (digitsVal ds : Nat)
      let v : Int := if neg then -v0 else v0
      if -(2 ^ 31) ≤ v ∧ v ≤ 2 ^ 31 - 1 then some v else none
    else none

/-- Rust `as usize` cast of an `i32` (64-bit target): sign-extend, reinterpret. -/
def usizeCast (z : Int) : Nat := (z % (2 ^ 64 : Int)).toNat

/-- `parse_str` from the source.  The unchecked slice
`&stream[colom_idx + 1..colom_idx + 1 + size]` panics whenever the declared
length runs past the end of the buffer; this is the `panic` branch. -/
def parse_str (stream : List Nat) : RResult :=
  match position (fun x => x == 58) stream with
  | none => .err .InvalidFormat
  | some colom_idx =>
    if colom_idx == 0 || colom_idx == stream.length - 1 then .err .InvalidFormat
    else
      let size_slice := stream.take colom_idx
      if size_slice.all isAscii then
        match parseI32 size_slice with
        | none => .err .PayloadTooBig
        | some sz =>
          let size := usizeCast sz
          if stream.length < colom_idx + 1 + size then .panic
          else
            let payload_slice := (stream.drop (colom_idx + 1)).take size
            if payload_slice.all isAscii then
              .ok ⟨.String payload_slice, stream.drop (colom_idx + 1 + size)⟩
            else .err .BufferTooShort
      else .err .InvalidEncoding

/-- `parse_int` from the source. -/
def parse_int (stream : List Nat) : RResult :=
  match position (fun x => x == 105) stream with
  | none => .err .InvalidFormat
  | some i_idx =>
    if i_idx != 0 then .err .BufferTooShort
    else
      match position (fun x => x == 101) stream with
      | none => .err .InvalidFormat
      | some e_idx =>
        if e_idx ≤ 1 then .err .BufferTooShort
        else
          let payload := (stream.take e_idx).drop 1
          if payload.all isAscii then
            match parseI32 payload with
            | none => .err .PayloadTooBig
            | some v => .ok ⟨.Integer v, stream.drop (e_idx + 1)⟩
          else .err .InvalidEncoding

/-- Strict lexicographic order on byte lists: the `Ord` instance of Rust
`&str`, which orders `BTreeMap<&str, _>` keys. -/
def lexLt : List Nat → List Nat → Bool
  | [], [] => false
  | [], _ :: _ => true
  | _ :: _, [] => false
  | a :: as, b :: bs => if a < b then true else if b < a then false else lexLt as bs

/-- `BTreeMap::insert`: insert into a key-sorted association list, replacing
the entry of an equal key. -/
def mapInsert (m : List (List Nat × BencodeType)) (k : List Nat) (v : BencodeType) :
    List (List Nat × BencodeType) :=
  match m with
  | [] => [(k, v)]
  | (k2, v2) :: rest =>
    if lexLt k k2 then (k, v) :: (k2, v2) :: rest
    else if k = k2 then (k, v) :: rest
    else (k2, v2) :: mapInsert rest k v

/-- `BTreeMap::get`: look a key up in the association list. -/
def mapLookup (m : List (List Nat × BencodeType)) (k : List Nat) : Option BencodeType :=
  match m with
  | [] => none
  | (k2, v2) :: rest => if k = k2 then some v2 else mapLookup rest k

/-- Which Rust function body `run` is currently executing: the dispatcher
`next_rule`, the prologue of `parse_list` / `parse_dict`, or one of their
`while` loops (carrying the accumulated elements / map). -/
inductive Mode where
  | rule : Mode
  | plist : Mode
  | pdict : Mode
  | listLoop : List BencodeType → Mode
  | dictLoop : List (List Nat × BencodeType) → Mode

/-- The mutually recursive core (`next_rule`, `parse_list`, `parse_dict`),
embedded as one function that is structurally recursive on `fuel`.  Every
recursive call in the Rust source corresponds to a call at fuel one less;
the termination theorems show `3 * |stream| + 3` fuel always suffices. -/
def run (fuel : Nat) (m : Mode) (stream : List Nat) : RResult :=
  match fuel with
  | 0 => .nofuel
  | f + 1 =>
    match m, stream with
    | .rule, [] => .err .EOF
    | .rule, c :: rest =>
      if isDigit c then parse_str (c :: rest)
      else if c == 105 then parse_int (c :: rest)
      else if c == 108 then run f .plist (c :: rest)
      else if c == 100 then run f .pdict (c :: rest)
      else .err .InvalidFormat
    | .plist, s =>
      match position (fun x => x == 108) s with
      | none => .err .InvalidFormat
      | some i => if i != 0 then .err .BufferTooShort else run f (.listLoop []) (s.drop 1)
    | .pdict, s =>
      match position (fun x => x == 100) s with
      | none => .err .InvalidFormat
      | some i => if i != 0 then .err .BufferTooShort else run f (.dictLoop []) (s.drop 1)
    | .listLoop _, [] => .err .InvalidFormat
    | .listLoop acc, c :: rest =>
      if c == 101 then .ok ⟨.List acc, rest⟩
      else
        match run f .rule (c :: rest) with
        | .ok entry => run f (.listLoop (acc ++ [entry.value])) entry.next
        | e => e
    | .dictLoop _, [] => .err .InvalidFormat
    | .dictLoop acc, c :: rest =>
      if c == 101 then .ok ⟨.Dictionary acc, rest⟩
      else
        match run f .rule (c :: rest) with
        | .ok key =>
          match run f .rule key.next with
          | .ok entry =>
            match key.value with
            | .String s2 => run f (.dictLoop (mapInsert acc s2 entry.value)) entry.next
            | _ => .err .InvalidFormat
          | e => e
        | e => e

/-- `next_rule` with the canonical (provably sufficient) fuel. -/
def next_rule (stream : List Nat) : RResult :=
  run (3 * stream.length + 3) .rule stream

/-- Top-level `parse`: dispatch once, then require the remainder empty. -/
def parse (stream : List Nat) : PResult :=
  match next_rule stream with
  | .ok r => if r.next = [] then .ok r.value else .err .EOF
  | .err e => .err e
  | .panic => .panic
  | .nofuel => .nofuel

example : parse [105, 52, 50, 101] = .ok (.Integer 42) := rfl
example : parse [] = .err .EOF := rfl
example : parse [105, 49, 101, 120] = .err .EOF := rfl
example : parse [108, 105, 49, 101, 105, 50, 101, 101] =
    .ok (.List [.Integer 1, .Integer 2]) := rfl
example : parse [100, 51, 58, 97, 98, 99, 105, 51, 101, 101] =
    .ok (.Dictionary [([97, 98, 99], .Integer 3)]) := rfl
example : parse [100, 105, 49, 101, 105, 50, 101, 101] = .err .InvalidFormat := rfl
example : parse [53, 58, 97, 98, 99] = .panic := rfl
example :
    parse [100, 49, 58, 97, 105, 49, 101, 49, 58, 97, 105, 50, 101, 101] =
    .ok (.Dictionary [([97], .Integer 2)]) := rfl
example :
    parse [100, 49, 58, 98, 105, 49, 101, 49, 58, 97, 105, 50, 101, 101] =
    .ok (.Dictionary [([97], .Integer 2), ([98], .Integer 1)]) := rfl

/-- Little-endian digit bytes of `n`, with `fuel` bounding the recursion. -/
def natToDecAux : Nat → Nat → List Nat
  | 0, _ => []
  | _ + 1, 0 => []
  | f + 1, n + 1 => ((n + 1) % 10 + 48) :: natToDecAux f ((n + 1) / 10)

/-- Decimal rendering of a natural number as ASCII digit bytes. -/
def natToDec (n : Nat) : List Nat :=
  if n = 0 then [48] else (natToDecAux n n).reverse

/-- Decimal rendering of an integer: optional `-` then digits (Rust `Display`). -/
def intToDec (z : Int) : List Nat :=
  if z < 0 then 45 :: natToDec z.natAbs else natToDec z.toNat

/-- Value of a little-endian digit-byte list. -/
def valLE : List Nat → Nat
  | [] => 0
  | d :: ds => (d - 48) + 10 * valLE ds

theorem natToDecAux_zero (f : Nat) : natToDecAux f 0 = [] := by
  cases f <;> rfl

theorem valLE_natToDecAux : ∀ f n, n ≤ f → valLE (natToDecAux f n) = n := by
  intro f
  induction f with
  | zero =>
    intro n hn
    have hn0 : n = 0 := Nat.le_zero.mp hn
    subst hn0
    rfl
  | succ f ih =>
    intro n hn
    match n with
    | 0 => simp [natToDecAux, valLE]
    | n + 1 =>
      have hdiv : (n + 1) / 10 ≤ f := by omega
      simp only [natToDecAux, valLE, ih _ hdiv]
      omega

theorem natToDecAux_mem_digit : ∀ f n d, d ∈ natToDecAux f n → 48 ≤ d ∧ d ≤ 57 := by
  intro f
  induction f with
  | zero => intro n d hd; simp [natToDecAux] at hd
  | succ f ih =>
    intro n d hd
    match n with
    | 0 => simp [natToDecAux] at hd
    | n + 1 =>
      simp only [natToDecAux, List.mem_cons] at hd
      rcases hd with h | h
      · omega
      · exact ih _ _ h

theorem natToDec_mem_digit (n : Nat) : ∀ d ∈ natToDec n, 48 ≤ d ∧ d ≤ 57 := by
  intro d hd
  unfold natToDec at hd
  split at hd
  · simp at hd; omega
  · rw [List.mem_reverse] at hd
    exact natToDecAux_mem_digit _ _ _ hd

theorem natToDec_ne_nil (n : Nat) : natToDec n ≠ [] := by
  unfold natToDec
  split
  · simp
  · rename_i h
    cases n with
    | zero => exact absurd rfl h
    | succ n2 => simp [natToDecAux]

theorem natToDec_length_pos (n : Nat) : 1 ≤ (natToDec n).length :=
  List.length_pos.mpr (natToDec_ne_nil n)

theorem digitsVal_reverse : ∀ (l : List Nat) (a : Nat),
    List.foldl (fun a c => a * 10 + (c - 48)) a l.reverse = a * 10 ^ l.length + valLE l := by
  intro l
  induction l with
  | nil => intro a; simp [valLE]
  | cons d t ih =>
    intro a
    simp only [List.reverse_cons, List.foldl_append, ih, List.foldl, valLE, List.length_cons]
    ring

theorem digitsVal_natToDec (n : Nat) : digitsVal (natToDec n) = n := by
  unfold natToDec digitsVal
  split
  · rename_i h
    subst h
    rfl
  · rw [digitsVal_reverse, valLE_natToDecAux n n le_rfl]
    simp

theorem natToDec_all_isDigit (n : Nat) : (natToDec n).all isDigit = true := by
  rw [List.all_eq_true]
  intro d hd
  have := natToDec_mem_digit n d hd
  simp [isDigit]; omega

theorem natToDec_all_isAscii (n : Nat) : (natToDec n).all isAscii = true := by
  rw [List.all_eq_true]
  intro d hd
  have := natToDec_mem_digit n d hd
  simp [isAscii]; omega

theorem parseI32_digits (ds : List Nat) (hne : ds ≠ []) (hd : ds.all isDigit = true)
    (hv : digitsVal ds ≤ 2 ^ 31 - 1) : parseI32 ds = some ((digitsVal ds : Nat) : Int) := by
  match ds with
  | c :: rest =>
    have hc : 48 ≤ c ∧ c ≤ 57 := by
      have := (List.all_eq_true.mp hd) c (by simp)
      simpa [isDigit] using this
    have h45 : (c == 45) = false := by simp; omega
    have h43 : (c == 43) = false := by simp; omega
    have hnn : (0 : Int) ≤ ((digitsVal (c :: rest) : Nat) : Int) := Int.natCast_nonneg _
    have hb : -(2 ^ 31 : Int) ≤ ((digitsVal (c :: rest) : Nat) : Int) ∧
        ((digitsVal (c :: rest) : Nat) : Int) ≤ 2 ^ 31 - 1 := by
      constructor <;> omega
    simp only [parseI32, h45, h43, Bool.or_self, Bool.false_eq_true, if_false,
      List.isEmpty_cons, hd, if_true]
    rw [if_pos hb]

theorem parseI32_neg_digits (ds : List Nat) (hne : ds ≠ []) (hd : ds.all isDigit = true)
    (hv : digitsVal ds ≤ 2 ^ 31) : parseI32 (45 :: ds) = some (-(digitsVal ds : Int)) := by
  have hemp : ds.isEmpty = false := by
    cases ds
    · exact absurd rfl hne
    · rfl
  have hnn : (0 : Int) ≤ ((digitsVal ds : Nat) : Int) := Int.natCast_nonneg _
  have hb : -(2 ^ 31 : Int) ≤ -((digitsVal ds : Nat) : Int) ∧
      -((digitsVal ds : Nat) : Int) ≤ 2 ^ 31 - 1 := by
    constructor <;> omega
  simp only [parseI32, show ((45 == 45) : Bool) = true from rfl,
    show ((45 == 43) : Bool) = false from rfl, Bool.true_or, if_true, hemp, hd,
    Bool.false_eq_true, if_false]
  rw [if_pos hb]

theorem parseI32_plus_digits (ds : List Nat) (hne : ds ≠ []) (hd : ds.all isDigit = true)
    (hv : digitsVal ds ≤ 2 ^ 31 - 1) : parseI32 (43 :: ds) = some ((digitsVal ds : Nat) : Int) := by
  have hemp : ds.isEmpty = false := by
    cases ds
    · exact absurd rfl hne
    · rfl
  have hnn : (0 : Int) ≤ ((digitsVal ds : Nat) : Int) := Int.natCast_nonneg _
  have hb : -(2 ^ 31 : Int) ≤ ((digitsVal ds : Nat) : Int) ∧
      ((digitsVal ds : Nat) : Int) ≤ 2 ^ 31 - 1 := by
    constructor <;> omega
  simp only [parseI32, show ((43 == 45) : Bool) = false from rfl,
    show ((43 == 43) : Bool) = true from rfl, Bool.false_or, if_true, hemp, hd,
    Bool.false_eq_true, if_false]
  rw [if_pos hb]

theorem parseI32_natToDec (n : Nat) (hn : n ≤ 2 ^ 31 - 1) :
    parseI32 (natToDec n) = some ((n : Nat) : Int) := by
  rw [parseI32_digits _ (natToDec_ne_nil n) (natToDec_all_isDigit n)
    (by rw [digitsVal_natToDec]; exact hn), digitsVal_natToDec]

theorem parseI32_intToDec (z : Int) (h1 : -(2 ^ 31) ≤ z) (h2 : z ≤ 2 ^ 31 - 1) :
    parseI32 (intToDec z) = some z := by
  unfold intToDec
  split
  · rename_i hneg
    rw [parseI32_neg_digits _ (natToDec_ne_nil _) (natToDec_all_isDigit _)
      (by rw [digitsVal_natToDec]; omega), digitsVal_natToDec]
    congr 1
    omega
  · rename_i hpos
    rw [parseI32_natToDec _ (by omega)]
    congr 1
    omega

theorem position_append (p : Nat → Bool) (l1 : List Nat) (y : Nat) (l2 : List Nat)
    (h1 : ∀ x ∈ l1, p x = false) (hy : p y = true) :
    position p (l1 ++ y :: l2) = some l1.length := by
  induction l1 with
  | nil => simp [position, hy]
  | cons a t ih =>
    have ha : p a = false := h1 a (by simp)
    have ih2 := ih (fun x hx => h1 x (by simp [hx]))
    simp [position, ha, ih2]

theorem usizeCast_natCast (k : Nat) (hk : k < 2 ^ 64) : usizeCast (k : Int) = k := by
  unfold usizeCast
  rw [Int.emod_eq_of_lt (by positivity) (by exact_mod_cast hk)]
  exact Int.toNat_natCast k

/-- Evaluation of `parse_int` on a well-delimited token `i<num>e<trailing>`:
the result is exactly what `str::parse::<i32>` makes of the numeral, and the
remainder is exactly the trailing bytes. -/
theorem parse_int_eval (num t : List Nat) (hne : num ≠ [])
    (h101 : ∀ d ∈ num, d ≠ 101) (hascii : num.all isAscii = true) :
    parse_int (105 :: (num ++ 101 :: t)) =
      match parseI32 num with
      | none => .err .PayloadTooBig
      | some v => .ok ⟨.Integer v, t⟩ := by
  have hpos105 : position (fun x => x == 105) (105 :: (num ++ 101 :: t)) = some 0 := by
    simp [position]
  have hnum101 : ∀ x ∈ num, (fun x => x == 101) x = false := by
    intro x hx
    simpa using h101 x hx
  have hpos101 : position (fun x => x == 101) (105 :: (num ++ 101 :: t)) =
      some (num.length + 1) := by
    simp only [position, show ((105 == 101) : Bool) = false from rfl, if_false,
      Bool.false_eq_true]
    rw [position_append _ _ _ _ hnum101 (by simp)]
    rfl
  have hlen : 1 ≤ num.length := by
    cases num
    · exact absurd rfl hne
    · simp
  have htake : ((105 :: (num ++ 101 :: t)).take (num.length + 1)).drop 1 = num := by
    simp only [List.take_succ_cons, List.drop_succ_cons, List.drop_zero]
    exact List.take_left num (101 :: t)
  have hdrop : (105 :: (num ++ 101 :: t)).drop (num.length + 1 + 1) = t := by
    simp only [List.drop_succ_cons]
    have : num ++ 101 :: t = (num ++ [101]) ++ t := by simp
    rw [this, List.drop_left' (by simp)]
  unfold parse_int
  simp only [hpos105, hpos101, show ((0 : Nat) != 0) = false from rfl,
    Bool.false_eq_true, if_false]
  rw [if_neg (by omega)]
  simp only [htake, hascii, if_true]
  rw [hdrop]

/-- Evaluation of `parse_str` on a well-delimited token
`<decimal k>:<payload><trailing>` with `|payload| = k`: succeeds with exactly
the payload if it is ASCII, else fails with `BufferTooShort` (the error the
source maps the payload ASCII failure to). -/
theorem parse_str_token (k : Nat) (s t : List Nat) (hk : k ≤ 2 ^ 31 - 1)
    (hs : s.length = k) (hnz : k = 0 → t ≠ []) :
    parse_str (natToDec k ++ 58 :: (s ++ t)) =
      if s.all isAscii then .ok ⟨.String s, t⟩ else .err .BufferTooShort := by
  set stream := natToDec k ++ 58 :: (s ++ t) with hstream
  have hd58 : ∀ x ∈ natToDec k, (fun x => x == 58) x = false := by
    intro x hx
    have := natToDec_mem_digit k x hx
    simp
    omega
  have hpos : position (fun x => x == 58) stream = some (natToDec k).length :=
    position_append _ _ _ _ hd58 (by simp)
  have hdlen : 1 ≤ (natToDec k).length := natToDec_length_pos k
  have hslen : stream.length = (natToDec k).length + 1 + k + t.length := by
    rw [hstream]
    simp [hs]
    omega
  have hktl : 1 ≤ k + t.length := by
    rcases Nat.eq_zero_or_pos k with hk0 | hk1
    · have ht := hnz hk0
      have := List.length_pos.mpr ht
      omega
    · omega
  have htakelen : stream.take (natToDec k).length = natToDec k := by
    rw [hstream]
    exact List.take_left _ _
  have hdrop1 : stream.drop ((natToDec k).length + 1) = s ++ t := by
    rw [hstream, show natToDec k ++ 58 :: (s ++ t) = (natToDec k ++ [58]) ++ (s ++ t) by simp]
    exact List.drop_left' (by simp)
  have hpayload : (stream.drop ((natToDec k).length + 1)).take k = s := by
    rw [hdrop1]
    exact List.take_left' hs
  have hdrop2 : stream.drop ((natToDec k).length + 1 + k) = t := by
    rw [hstream,
      show natToDec k ++ 58 :: (s ++ t) = ((natToDec k ++ [58]) ++ s) ++ t by simp]
    rw [List.drop_left' (by simp [hs]; omega)]
  unfold parse_str
  simp only [hpos]
  rw [if_neg (by simp only [Bool.or_eq_true, beq_iff_eq]; push_neg; omega)]
  simp only [htakelen, natToDec_all_isAscii k, if_true, parseI32_natToDec k hk,
    show usizeCast (k : Int) = k from usizeCast_natCast k (by omega)]
  rw [if_neg (by omega)]
  rw [hpayload, hdrop2]

theorem position_eq_none_nil (p : Nat → Bool) : position p [] = none := rfl

theorem parse_str_consume (s : List Nat) (pr : ParseResult) (h : parse_str s = .ok pr) :
    pr.next.length < s.length ∧ pr.next <:+ s := by
  unfold parse_str at h
  simp only [] at h
  split at h
  · exact RResult.noConfusion h
  · rename_i colom_idx hp
    have hnil : s ≠ [] := by
      intro hs
      rw [hs, position_eq_none_nil] at hp
      exact Option.noConfusion hp
    split at h
    · exact RResult.noConfusion h
    · split at h
      · split at h
        · exact RResult.noConfusion h
        · rename_i sz hsz
          split at h
          · exact RResult.noConfusion h
          · split at h
            · have hpr : pr.next = s.drop (colom_idx + 1 + usizeCast sz) :=
                congrArg ParseResult.next (RResult.ok.inj h).symm
              rw [hpr]
              refine ⟨?_, List.drop_suffix _ s⟩
              rw [List.length_drop]
              have := List.length_pos.mpr hnil
              omega
            · exact RResult.noConfusion h
      · exact RResult.noConfusion h

theorem parse_int_consume (s : List Nat) (pr : ParseResult) (h : parse_int s = .ok pr) :
    pr.next.length < s.length ∧ pr.next <:+ s := by
  unfold parse_int at h
  simp only [] at h
  split at h
  · exact RResult.noConfusion h
  · split at h
    · exact RResult.noConfusion h
    · split at h
      · exact RResult.noConfusion h
      · rename_i e_idx hp
        have hnil : s ≠ [] := by
          intro hs
          rw [hs, position_eq_none_nil] at hp
          exact Option.noConfusion hp
        split at h
        · exact RResult.noConfusion h
        · split at h
          · split at h
            · exact RResult.noConfusion h
            · have hpr : pr.next = s.drop (e_idx + 1) :=
                congrArg ParseResult.next (RResult.ok.inj h).symm
              rw [hpr]
              refine ⟨?_, List.drop_suffix _ s⟩
              rw [List.length_drop]
              have := List.length_pos.mpr hnil
              omega
          · exact RResult.noConfusion h

theorem parse_str_ne_nofuel (s : List Nat) : parse_str s ≠ .nofuel := by
  intro h
  unfold parse_str at h
  simp only [] at h
  repeat' split at h
  all_goals exact RResult.noConfusion h

theorem parse_int_ne_nofuel (s : List Nat) : parse_int s ≠ .nofuel := by
  intro h
  unfold parse_int at h
  simp only [] at h
  repeat' split at h
  all_goals exact RResult.noConfusion h

/-- Every successful call of any of the mutually recursive parsers returns
a remainder that is a strict suffix of its input. -/
theorem run_consume :
    ∀ f m s pr, run f m s = .ok pr → pr.next.length < s.length ∧ pr.next <:+ s := by
  intro f
  induction f with
  | zero => intro m s pr h; exact RResult.noConfusion h
  | succ f ih =>
    intro m s pr h
    match m, s with
    | .rule, [] => exact RResult.noConfusion h
    | .rule, c :: rest =>
      rw [show run (f + 1) .rule (c :: rest) =
          (if isDigit c then parse_str (c :: rest)
          else if c == 105 then parse_int (c :: rest)
          else if c == 108 then run f .plist (c :: rest)
          else if c == 100 then run f .pdict (c :: rest)
          else .err .InvalidFormat) from rfl] at h
      split at h
      · exact parse_str_consume _ _ h
      · split at h
        · exact parse_int_consume _ _ h
        · split at h
          · exact ih _ _ _ h
          · split at h
            · exact ih _ _ _ h
            · exact RResult.noConfusion h
    | .plist, s =>
      rw [show run (f + 1) .plist s =
          (match position (fun x => x == 108) s with
          | none => .err .InvalidFormat
          | some i =>
            if i != 0 then .err .BufferTooShort
            else run f (.listLoop []) (s.drop 1)) from rfl] at h
      split at h
      · exact RResult.noConfusion h
      · split at h
        · exact RResult.noConfusion h
        · have h2 := ih _ _ _ h
          refine ⟨lt_of_lt_of_le h2.1 ?_, h2.2.trans (List.drop_suffix 1 s)⟩
          rw [List.length_drop]
          omega
    | .pdict, s =>
      rw [show run (f + 1) .pdict s =
          (match position (fun x => x == 100) s with
          | none => .err .InvalidFormat
          | some i =>
            if i != 0 then .err .BufferTooShort
            else run f (.dictLoop []) (s.drop 1)) from rfl] at h
      split at h
      · exact RResult.noConfusion h
      · split at h
        · exact RResult.noConfusion h
        · have h2 := ih _ _ _ h
          refine ⟨lt_of_lt_of_le h2.1 ?_, h2.2.trans (List.drop_suffix 1 s)⟩
          rw [List.length_drop]
          omega
    | .listLoop acc, [] => exact RResult.noConfusion h
    | .listLoop acc, c :: rest =>
      rw [show run (f + 1) (.listLoop acc) (c :: rest) =
          (if c == 101 then .ok ⟨.List acc, rest⟩
          else
            match run f .rule (c :: rest) with
            | .ok entry => run f (.listLoop (acc ++ [entry.value])) entry.next
            | e => e) from rfl] at h
      split at h
      · have hpr : pr.next = rest := congrArg ParseResult.next (RResult.ok.inj h).symm
        rw [hpr]
        exact ⟨by simp, List.suffix_cons c rest⟩
      · split at h
        · rename_i entry hentry
          have h1 := ih _ _ _ hentry
          have h2 := ih _ _ _ h
          exact ⟨h2.1.trans h1.1, h2.2.trans h1.2⟩
        · rename_i e hne
          rw [h] at hne
          exact absurd rfl (hne pr)
    | .dictLoop acc, [] => exact RResult.noConfusion h
    | .dictLoop acc, c :: rest =>
      rw [show run (f + 1) (.dictLoop acc) (c :: rest) =
          (if c == 101 then .ok ⟨.Dictionary acc, rest⟩
          else
            match run f .rule (c :: rest) with
            | .ok key =>
              match run f .rule key.next with
              | .ok entry =>
                match key.value with
                | .String s2 => run f (.dictLoop (mapInsert acc s2 entry.value)) entry.next
                | _ => .err .InvalidFormat
              | e => e
            | e => e) from rfl] at h
      split at h
      · have hpr : pr.next = rest := congrArg ParseResult.next (RResult.ok.inj h).symm
        rw [hpr]
        exact ⟨by simp, List.suffix_cons c rest⟩
      · split at h
        · rename_i key hkey
          split at h
          · rename_i entry hentry
            have h1 := ih _ _ _ hkey
            have h2 := ih _ _ _ hentry
            split at h
            · have h3 := ih _ _ _ h
              exact ⟨h3.1.trans (h2.1.trans h1.1), h3.2.trans (h2.2.trans h1.2)⟩
            all_goals exact RResult.noConfusion h
          · rename_i e hne
            rw [h] at hne
            exact absurd rfl (hne pr)
        · rename_i e hne
          rw [h] at hne
          exact absurd rfl (hne pr)

/-- Fuel sufficiency: with fuel at least `3 * |input| + 1` (plus small
mode-dependent offsets) the fuel-based embedding never runs out of fuel, so
the Rust recursion it models terminates on every input. -/
theorem run_sufficient :
    ∀ f s,
      (3 * s.length + 1 ≤ f → run f .rule s ≠ .nofuel) ∧
      (3 * s.length ≤ f → s ≠ [] → run f .plist s ≠ .nofuel ∧ run f .pdict s ≠ .nofuel) ∧
      (∀ acc, 3 * s.length + 2 ≤ f → run f (.listLoop acc) s ≠ .nofuel) ∧
      (∀ acc, 3 * s.length + 2 ≤ f → run f (.dictLoop acc) s ≠ .nofuel) := by
  intro f
  induction f with
  | zero =>
    intro s
    refine ⟨?_, ?_, ?_, ?_⟩
    · intro hb
      exact absurd hb (by omega)
    · intro hb hne
      have hpos := List.length_pos.mpr hne
      exact absurd hb (by omega)
    · intro acc hb
      exact absurd hb (by omega)
    · intro acc hb
      exact absurd hb (by omega)
  | succ f ih =>
    intro s
    refine ⟨?_, ?_, ?_, ?_⟩
    · intro hb
      match s with
      | [] =>
        intro h
        exact RResult.noConfusion h
      | c :: rest =>
        rw [show run (f + 1) .rule (c :: rest) =
            (if isDigit c then parse_str (c :: rest)
            else if c == 105 then parse_int (c :: rest)
            else if c == 108 then run f .plist (c :: rest)
            else if c == 100 then run f .pdict (c :: rest)
            else .err .InvalidFormat) from rfl]
        split
        · exact parse_str_ne_nofuel _
        · split
          · exact parse_int_ne_nofuel _
          · split
            · exact ((ih (c :: rest)).2.1 (by omega) (by simp)).1
            · split
              · exact ((ih (c :: rest)).2.1 (by omega) (by simp)).2
              · intro h
                exact RResult.noConfusion h
    · intro hb hne
      have hpos := List.length_pos.mpr hne
      constructor
      · rw [show run (f + 1) .plist s =
            (match position (fun x => x == 108) s with
            | none => .err .InvalidFormat
            | some i =>
              if i != 0 then .err .BufferTooShort
              else run f (.listLoop []) (s.drop 1)) from rfl]
        split
        · intro h
          exact RResult.noConfusion h
        · split
          · intro h
            exact RResult.noConfusion h
          · apply (ih (s.drop 1)).2.2.1
            rw [List.length_drop]
            omega
      · rw [show run (f + 1) .pdict s =
            (match position (fun x => x == 100) s with
            | none => .err .InvalidFormat
            | some i =>
              if i != 0 then .err .BufferTooShort
              else run f (.dictLoop []) (s.drop 1)) from rfl]
        split
        · intro h
          exact RResult.noConfusion h
        · split
          · intro h
            exact RResult.noConfusion h
          · apply (ih (s.drop 1)).2.2.2
            rw [List.length_drop]
            omega
    · intro acc hb
      match s with
      | [] =>
        intro h
        exact RResult.noConfusion h
      | c :: rest =>
        rw [show run (f + 1) (.listLoop acc) (c :: rest) =
            (if c == 101 then .ok ⟨.List acc, rest⟩
            else
              match run f .rule (c :: rest) with
              | .ok entry => run f (.listLoop (acc ++ [entry.value])) entry.next
              | e => e) from rfl]
        split
        · intro h
          exact RResult.noConfusion h
        · have hrule : run f .rule (c :: rest) ≠ .nofuel := (ih (c :: rest)).1 (by omega)
          cases hr : run f .rule (c :: rest) with
          | ok entry =>
            have h1 := (run_consume f .rule (c :: rest) entry hr).1
            exact (ih entry.next).2.2.1 (acc ++ [entry.value]) (by omega)
          | err e =>
            intro h
            exact RResult.noConfusion h
          | panic =>
            intro h
            exact RResult.noConfusion h
          | nofuel => exact absurd hr hrule
    · intro acc hb
      match s with
      | [] =>
        intro h
        exact RResult.noConfusion h
      | c :: rest =>
        rw [show run (f + 1) (.dictLoop acc) (c :: rest) =
            (if c == 101 then .ok ⟨.Dictionary acc, rest⟩
            else
              match run f .rule (c :: rest) with
              | .ok key =>
                match run f .rule key.next with
                | .ok entry =>
                  match key.value with
                  | .String s2 => run f (.dictLoop (mapInsert acc s2 entry.value)) entry.next
                  | _ => .err .InvalidFormat
                | e => e
              | e => e) from rfl]
        split
        · intro h
          exact RResult.noConfusion h
        · have hrule : run f .rule (c :: rest) ≠ .nofuel := (ih (c :: rest)).1 (by omega)
          cases hr : run f .rule (c :: rest) with
          | ok key =>
            show (match run f .rule key.next with
                  | .ok entry =>
                    match key.value with
                    | .String s2 => run f (.dictLoop (mapInsert acc s2 entry.value)) entry.next
                    | _ => .err .InvalidFormat
                  | e => e) ≠ .nofuel
            have h1 := (run_consume f .rule (c :: rest) key hr).1
            have hrule2 : run f .rule key.next ≠ .nofuel := (ih key.next).1 (by omega)
            cases hr2 : run f .rule key.next with
            | ok entry =>
              show (match key.value with
                    | .String s2 => run f (.dictLoop (mapInsert acc s2 entry.value)) entry.next
                    | _ => .err .InvalidFormat) ≠ .nofuel
              have h2 := (run_consume f .rule key.next entry hr2).1
              cases key.value with
              | String s2 => exact (ih entry.next).2.2.2 (mapInsert acc s2 entry.value) (by omega)
              | Integer z =>
                intro h
                exact RResult.noConfusion h
              | List xs =>
                intro h
                exact RResult.noConfusion h
              | Dictionary m2 =>
                intro h
                exact RResult.noConfusion h
            | err e =>
              intro h
              exact RResult.noConfusion h
            | panic =>
              intro h
              exact RResult.noConfusion h
            | nofuel => exact absurd hr2 hrule2
          | err e =>
            intro h
            exact RResult.noConfusion h
          | panic =>
            intro h
            exact RResult.noConfusion h
          | nofuel => exact absurd hr hrule

theorem lexLt_irrefl : ∀ a, lexLt a a = false := by
  intro a
  induction a with
  | nil => rfl
  | cons x xs ih => simp [lexLt, ih]

theorem lexLt_trans : ∀ a b c, lexLt a b = true → lexLt b c = true → lexLt a c = true := by
  intro a
  induction a with
  | nil =>
    intro b c hab hbc
    cases b with
    | nil => simp [lexLt] at hab
    | cons y ys =>
      cases c with
      | nil => simp [lexLt] at hbc
      | cons z zs => rfl
  | cons x xs ih =>
    intro b c hab hbc
    cases b with
    | nil => simp [lexLt] at hab
    | cons y ys =>
      cases c with
      | nil => simp [lexLt] at hbc
      | cons z zs =>
        simp only [lexLt] at hab hbc ⊢
        split at hab
        · rename_i hxy
          split at hbc
          · rename_i hyz
            rw [if_pos (by omega)]
          · split at hbc
            · exact absurd hbc (by simp)
            · rename_i hyz hzy
              rw [if_pos (by omega)]
        · split at hab
          · exact absurd hab (by simp)
          · rename_i hxy hyx
            split at hbc
            · rename_i hyz
              rw [if_pos (by omega)]
            · split at hbc
              · exact absurd hbc (by simp)
              · rename_i hyz hzy
                rw [if_neg (by omega), if_neg (by omega)]
                exact ih ys zs hab hbc

theorem lexLt_total : ∀ a b, lexLt a b = false → a ≠ b → lexLt b a = true := by
  intro a
  induction a with
  | nil =>
    intro b hab hne
    cases b with
    | nil => exact absurd rfl hne
    | cons y ys => simp [lexLt] at hab
  | cons x xs ih =>
    intro b hab hne
    cases b with
    | nil => rfl
    | cons y ys =>
      simp only [lexLt] at hab ⊢
      split at hab
      · exact absurd hab (by simp)
      · split at hab
        · rename_i hxy hyx
          rw [if_pos hyx]
        · rename_i hxy hyx
          have hxy2 : x = y := by omega
          rw [if_neg (by omega), if_neg (by omega)]
          apply ih ys hab
          intro he
          exact hne (by rw [hxy2, he])

theorem mem_mapInsert : ∀ m k v x, x ∈ mapInsert m k v → x = (k, v) ∨ x ∈ m := by
  intro m k v
  induction m with
  | nil =>
    intro x hx
    simp [mapInsert] at hx
    exact Or.inl hx
  | cons kv rest ih =>
    intro x hx
    obtain ⟨k2, v2⟩ := kv
    simp only [mapInsert] at hx
    split at hx
    · rcases List.mem_cons.mp hx with h | h
      · exact Or.inl h
      · exact Or.inr h
    · split at hx
      · rcases List.mem_cons.mp hx with h | h
        · exact Or.inl h
        · exact Or.inr (List.mem_cons_of_mem _ h)
      · rcases List.mem_cons.mp hx with h | h
        · exact Or.inr (by simp [h])
        · rcases ih x h with h2 | h2
          · exact Or.inl h2
          · exact Or.inr (by simp [h2])

/-- All keys of `m` are strictly above `a` in the key order. -/
def keysLtAll (a : List Nat) (m : List (List Nat × BencodeType)) : Bool :=
  m.all (fun kv => lexLt a kv.1)

/-- The association list is strictly sorted by key: every entry's key is
`lexLt`-below every later entry's key (the `BTreeMap` shape invariant). -/
def sortedPairs : List (List Nat × BencodeType) → Bool
  | [] => true
  | kv :: rest => keysLtAll kv.1 rest && sortedPairs rest

theorem keysLtAll_mapInsert (a k : List Nat) (v : BencodeType)
    (m : List (List Nat × BencodeType)) (hm : keysLtAll a m = true)
    (hak : lexLt a k = true) : keysLtAll a (mapInsert m k v) = true := by
  rw [keysLtAll, List.all_eq_true]
  intro kv hkv
  rcases mem_mapInsert m k v kv hkv with h | h
  · rw [h]
    exact hak
  · rw [keysLtAll] at hm
    exact (List.all_eq_true.mp hm) kv h

theorem sortedPairs_mapInsert (m : List (List Nat × BencodeType)) (k : List Nat)
    (v : BencodeType) (hm : sortedPairs m = true) :
    sortedPairs (mapInsert m k v) = true := by
  induction m with
  | nil => rfl
  | cons kv rest ih =>
    obtain ⟨k2, v2⟩ := kv
    simp only [sortedPairs, Bool.and_eq_true] at hm
    obtain ⟨h1, h2⟩ := hm
    simp only [mapInsert]
    split
    · rename_i hlt
      simp only [sortedPairs, Bool.and_eq_true]
      refine ⟨?_, h1, h2⟩
      rw [keysLtAll, List.all_eq_true]
      intro kv3 hkv3
      rcases List.mem_cons.mp hkv3 with h | h
      · rw [h]
        exact hlt
      · rw [keysLtAll] at h1
        exact lexLt_trans _ _ _ hlt ((List.all_eq_true.mp h1) kv3 h)
    · split
      · rename_i hlt heq
        subst heq
        simp [sortedPairs, h1, h2]
      · rename_i hlt hne
        simp only [sortedPairs, Bool.and_eq_true]
        refine ⟨?_, ih h2⟩
        exact keysLtAll_mapInsert k2 k v rest h1
          (lexLt_total k k2 (Bool.eq_false_iff.mpr hlt) hne)

theorem mapLookup_mapInsert_self : ∀ m k v, mapLookup (mapInsert m k v) k = some v := by
  intro m k v
  induction m with
  | nil => simp [mapInsert, mapLookup]
  | cons kv rest ih =>
    obtain ⟨k2, v2⟩ := kv
    simp only [mapInsert]
    split
    · simp [mapLookup]
    · split
      · simp [mapLookup]
      · rename_i h1 h2
        simp only [mapLookup]
        rw [if_neg h2]
        exact ih

theorem mapLookup_mapInsert_ne : ∀ m k v k0, k0 ≠ k →
    mapLookup (mapInsert m k v) k0 = mapLookup m k0 := by
  intro m k v k0 hne
  induction m with
  | nil => simp [mapInsert, mapLookup, hne]
  | cons kv rest ih =>
    obtain ⟨k2, v2⟩ := kv
    simp only [mapInsert]
    split
    · simp only [mapLookup]
      rw [if_neg hne]
    · split
      · rename_i h1 heq
        subst heq
        simp [mapLookup, hne]
      · simp only [mapLookup]
        split
        · rfl
        · exact ih

/-- Value of the last occurrence of key `k` in the pair list, if any. -/
def lastVal : List (List Nat × BencodeType) → List Nat → Option BencodeType
  | [], _ => none
  | kv :: rest, k =>
    match lastVal rest k with
    | some v => some v
    | none => if k = kv.1 then some kv.2 else none

/-- The map the dictionary loop builds from a pair sequence: successive
`BTreeMap::insert`s starting from the empty map. -/
def dictOf (ps : List (List Nat × BencodeType)) : List (List Nat × BencodeType) :=
  ps.foldl (fun m kv => mapInsert m kv.1 kv.2) []

theorem mapLookup_foldl_insert : ∀ (ps acc2 : List (List Nat × BencodeType)) (k : List Nat),
    mapLookup (ps.foldl (fun m kv => mapInsert m kv.1 kv.2) acc2) k =
      match lastVal ps k with
      | some v => some v
      | none => mapLookup acc2 k := by
  intro ps
  induction ps with
  | nil =>
    intro acc2 k
    rfl
  | cons kv rest ih =>
    intro acc2 k
    simp only [List.foldl_cons, lastVal]
    rw [ih]
    cases h : lastVal rest k with
    | some v => rfl
    | none =>
      show mapLookup (mapInsert acc2 kv.1 kv.2) k =
        (match (if k = kv.1 then some kv.2 else none : Option BencodeType) with
        | some v => some v
        | none => mapLookup acc2 k)
      by_cases heq : k = kv.1
      · subst heq
        rw [if_pos rfl]
        exact mapLookup_mapInsert_self acc2 kv.1 kv.2
      · rw [if_neg heq]
        exact mapLookup_mapInsert_ne acc2 kv.1 kv.2 k heq

theorem sortedPairs_foldl_insert : ∀ (ps acc2 : List (List Nat × BencodeType)),
    sortedPairs acc2 = true →
    sortedPairs (ps.foldl (fun m kv => mapInsert m kv.1 kv.2) acc2) = true := by
  intro ps
  induction ps with
  | nil =>
    intro acc2 h
    exact h
  | cons kv rest ih =>
    intro acc2 h
    exact ih _ (sortedPairs_mapInsert _ _ _ h)

theorem sortedPairs_pairwise_ne : ∀ m, sortedPairs m = true →
    List.Pairwise (fun a b : List Nat × BencodeType => a.1 ≠ b.1) m := by
  intro m
  induction m with
  | nil =>
    intro h
    exact List.Pairwise.nil
  | cons kv rest ih =>
    intro h
    simp only [sortedPairs, Bool.and_eq_true] at h
    refine List.Pairwise.cons ?_ (ih h.2)
    intro b hb heq
    have hlt := (List.all_eq_true.mp (by rw [keysLtAll] at h; exact h.1)) b hb
    rw [heq, lexLt_irrefl] at hlt
    exact Bool.noConfusion hlt

/-- Claim C9: the recursive descent terminates on every input — with the
canonical fuel the embedding never exhausts fuel (first part via
`run_sufficient`), and every successful parser call returns a remainder
that is a strict suffix of its input, so recursion always advances and no
parser re-examines returned bytes. -/
theorem c9_termination :
    (∀ f m s pr, run f m s = .ok pr → pr.next.length < s.length ∧ pr.next <:+ s) ∧
    (∀ s, next_rule s ≠ .nofuel) := by
  refine ⟨run_consume, ?_⟩
  intro s
  exact (run_sufficient (3 * s.length + 3) s).1 (by omega)

theorem c9_witness :
    ([120] : List Nat).length < ([105, 49, 101, 120] : List Nat).length ∧
    ([120] : List Nat) <:+ [105, 49, 101, 120] :=
  c9_termination.1 15 .rule [105, 49, 101, 120] ⟨.Integer 1, [120]⟩ rfl

theorem intToDec_ne_nil (z : Int) : intToDec z ≠ [] := by
  unfold intToDec
  split
  · simp
  · exact natToDec_ne_nil _

theorem intToDec_mem (z : Int) : ∀ d ∈ intToDec z, d = 45 ∨ (48 ≤ d ∧ d ≤ 57) := by
  intro d hd
  unfold intToDec at hd
  split at hd
  · rcases List.mem_cons.mp hd with h | h
    · exact Or.inl h
    · exact Or.inr (natToDec_mem_digit _ d h)
  · exact Or.inr (natToDec_mem_digit _ d hd)

theorem intToDec_all_isAscii (z : Int) : (intToDec z).all isAscii = true := by
  rw [List.all_eq_true]
  intro d hd
  have := intToDec_mem z d hd
  simp [isAscii]
  omega

/-- Claim C1: evaluation of the code at the failing input `"5:abc"`.  The
declared length 5 exceeds the 3 available payload bytes, and the unchecked
slice `&stream[colom_idx + 1..colom_idx + 1 + size]` panics (both in
`parse_str` itself and through the top-level `parse`) instead of returning
the `BufferTooShort` error the specification promises. -/
theorem c1_parse_str_panics_on_short_buffer :
    parse_str [53, 58, 97, 98, 99] = .panic ∧ parse [53, 58, 97, 98, 99] = .panic :=
  ⟨rfl, rfl⟩

/-- Claim C2, counterexample: the string token `"1:"` followed by the
non-ASCII byte 200 fails with `BufferTooShort`, not with the
invalid-text-encoding error kind the claim names. -/
theorem c2_counterexample :
    parse_str [49, 58, 200] = .err .BufferTooShort ∧
    parse_str [49, 58, 200] ≠ .err .InvalidEncoding := by
  refine ⟨rfl, ?_⟩
  intro h
  rw [show parse_str [49, 58, 200] = .err .BufferTooShort from rfl] at h
  exact ConvertError.noConfusion (RResult.err.inj h)

/-- Claim C2 as amended: for every string token whose payload bytes contain
a non-ASCII value, the string parser fails with the `BufferTooShort` error
kind (the source maps the payload ASCII-check failure to `BufferTooShort`,
not to `InvalidEncoding`). -/
theorem c2_nonascii_payload_errs_buffer_too_short (k : Nat) (s t : List Nat)
    (hk : k ≤ 2 ^ 31 - 1) (hs : s.length = k) (hascii : s.all isAscii = false) :
    parse_str (natToDec k ++ 58 :: (s ++ t)) = .err .BufferTooShort := by
  have hnz : k = 0 → t ≠ [] := by
    intro hk0
    have hsnil : s = [] := List.eq_nil_of_length_eq_zero (hs.trans hk0)
    rw [hsnil] at hascii
    exact absurd hascii (by decide)
  rw [parse_str_token k s t hk hs hnz]
  rw [if_neg (by simp [hascii])]

theorem c2_witness :
    parse_str (natToDec 1 ++ 58 :: ([200] ++ [])) = .err .BufferTooShort :=
  c2_nonascii_payload_errs_buffer_too_short 1 [200] [] (by norm_num) rfl rfl

/-- Claim C3, counterexample: the token built from `k = 0` with nothing
appended is `"0:"`; decoding it does not yield the empty string — it fails
with `InvalidFormat`, because the colon is the final byte of the input. -/
theorem c3_counterexample :
    parse_str [48, 58] = .err .InvalidFormat ∧ ∀ r, parse_str [48, 58] ≠ .ok r := by
  refine ⟨rfl, ?_⟩
  intro r h
  rw [show parse_str [48, 58] = .err .InvalidFormat from rfl] at h
  exact RResult.noConfusion h

/-- Claim C3 as amended: for every `k` that fits in `i32` and every ASCII
payload of length `k`, decoding `<k>:<payload><trailing>` yields exactly the
payload and exactly the trailing bytes as remainder — provided the byte
after the colon exists (`k ≥ 1` or trailing bytes nonempty); the single
excluded case `k = 0` with nothing appended fails with `InvalidFormat`. -/
theorem c3_string_roundtrip (k : Nat) (s t : List Nat) (hk : k ≤ 2 ^ 31 - 1)
    (hs : s.length = k) (hascii : s.all isAscii = true) (hnz : k = 0 → t ≠ []) :
    parse_str (natToDec k ++ 58 :: (s ++ t)) = .ok ⟨.String s, t⟩ := by
  rw [parse_str_token k s t hk hs hnz, if_pos hascii]

theorem c3_witness :
    parse_str (natToDec 3 ++ 58 :: ([97, 98, 99] ++ [100])) =
      .ok ⟨.String [97, 98, 99], [100]⟩ ∧
    parse_str (natToDec 0 ++ 58 :: ([] ++ [120])) = .ok ⟨.String [], [120]⟩ :=
  ⟨c3_string_roundtrip 3 [97, 98, 99] [100] (by norm_num) rfl rfl (by decide),
   c3_string_roundtrip 0 [] [120] (by norm_num) rfl rfl (by decide)⟩

/-- Claim C4: for every `n` in the signed 32-bit range and any trailing
bytes, decoding `i<decimal n>e<trailing>` yields exactly `Integer n` and
exactly the trailing bytes as the unconsumed remainder. -/
theorem c4_int_roundtrip (n : Int) (h1 : -(2 ^ 31) ≤ n) (h2 : n ≤ 2 ^ 31 - 1)
    (t : List Nat) :
    parse_int (105 :: (intToDec n ++ 101 :: t)) = .ok ⟨.Integer n, t⟩ := by
  have h101 : ∀ d ∈ intToDec n, d ≠ 101 := by
    intro d hd
    have := intToDec_mem n d hd
    omega
  rw [parse_int_eval _ _ (intToDec_ne_nil n) h101 (intToDec_all_isAscii n),
    parseI32_intToDec n h1 h2]

theorem c4_witness :
    parse_int (105 :: (intToDec (-12345) ++ 101 :: [120])) =
      .ok ⟨.Integer (-12345), [120]⟩ :=
  c4_int_roundtrip (-12345) (by norm_num) (by norm_num) [120]

/-- Claim C5, counterexample: the integer token `"i+5e"` (numeral with a
leading `+`) does not fail with `PayloadTooBig` — the numeral parser accepts
an optional leading `+`, so it decodes to `Integer 5`. -/
theorem c5_counterexample :
    parse_int [105, 43, 53, 101] = .ok ⟨.Integer 5, []⟩ ∧
    parse_int [105, 43, 53, 101] ≠ .err .PayloadTooBig := by
  refine ⟨rfl, ?_⟩
  intro h
  rw [show parse_int [105, 43, 53, 101] = .ok ⟨.Integer 5, []⟩ from rfl] at h
  exact RResult.noConfusion h

/-- Claim C5 as amended: the integer token's numeral admits an optional
leading `+` as well as `-`: for every in-range `n`, `"i+<decimal n>e"`
decodes successfully to `Integer n` (it does not fail with the
numeral-out-of-range error kind). -/
theorem c5_plus_sign_numeral_accepted (n : Nat) (hn : n ≤ 2 ^ 31 - 1) (t : List Nat) :
    parse_int (105 :: ((43 :: natToDec n) ++ 101 :: t)) = .ok ⟨.Integer n, t⟩ := by
  have hne : (43 :: natToDec n) ≠ [] := by simp
  have h101 : ∀ d ∈ 43 :: natToDec n, d ≠ 101 := by
    intro d hd
    rcases List.mem_cons.mp hd with h | h
    · omega
    · have := natToDec_mem_digit n d h
      omega
  have hascii : (43 :: natToDec n).all isAscii = true := by
    simp [isAscii, natToDec_all_isAscii n]
  rw [parse_int_eval _ _ hne h101 hascii,
    parseI32_plus_digits _ (natToDec_ne_nil n) (natToDec_all_isDigit n)
      (by rw [digitsVal_natToDec]; exact hn)]
  rw [digitsVal_natToDec]

theorem c5_witness :
    parse_int (105 :: ((43 :: natToDec 5) ++ 101 :: [])) = .ok ⟨.Integer 5, []⟩ :=
  c5_plus_sign_numeral_accepted 5 (by norm_num) []

/-- Claim C6: the top-level decode fails with `EOF` on empty input, fails
with `EOF` whenever the dispatched parse leaves a nonempty remainder, and
succeeds exactly when the remainder is empty. -/
theorem c6_entry_requires_full_consumption :
    parse [] = .err .EOF ∧
    (∀ s r, next_rule s = .ok r → r.next ≠ [] → parse s = .err .EOF) ∧
    (∀ s r, next_rule s = .ok r → r.next = [] → parse s = .ok r.value) := by
  refine ⟨rfl, ?_, ?_⟩
  · intro s r h hne
    unfold parse
    simp only [h]
    rw [if_neg hne]
  · intro s r h he
    unfold parse
    simp only [h]
    rw [if_pos he]

theorem c6_witness :
    next_rule [105, 49, 101, 120] = .ok ⟨.Integer 1, [120]⟩ ∧
    parse [105, 49, 101, 120] = .err .EOF :=
  ⟨rfl, c6_entry_requires_full_consumption.2.1 [105, 49, 101, 120]
    ⟨.Integer 1, [120]⟩ rfl (by decide)⟩

/-- A dictionary body: the byte sequence `s` consists of a sequence of
decodable (key token, value token) pairs, with every key decoding as a
String, followed by the terminator `e` and remainder `r`.  The fuel index
matches the fuel with which the dictionary loop dispatches each token. -/
inductive Body : Nat → List Nat → List (List Nat × BencodeType) → List Nat → Prop where
  | nil : ∀ f r, Body (f + 1) (101 :: r) [] r
  | cons : ∀ f s k n1 v n2 ps r,
      run f .rule s = .ok ⟨.String k, n1⟩ →
      run f .rule n1 = .ok ⟨v, n2⟩ →
      Body f n2 ps r →
      Body (f + 1) s ((k, v) :: ps) r

/-- A successful dispatch never happens on an empty stream nor on a stream
whose first byte is the terminator `e`. -/
theorem run_rule_ok_shape : ∀ f s pr, run f .rule s = .ok pr →
    ∃ c rest, s = c :: rest ∧ (c == 101) = false := by
  intro f s pr h
  match f, s with
  | 0, _ => exact RResult.noConfusion h
  | f + 1, [] => exact RResult.noConfusion h
  | f + 1, c :: rest =>
    refine ⟨c, rest, rfl, ?_⟩
    by_contra hc
    have hc2 : c = 101 := by simpa using hc
    subst hc2
    rw [show run (f + 1) .rule (101 :: rest) = .err .InvalidFormat from rfl] at h
    exact RResult.noConfusion h

/-- The dictionary loop over a decodable body inserts each pair in order
into the accumulated map and stops at the terminator. -/
theorem run_dictLoop_body : ∀ f s ps r, Body f s ps r → ∀ acc,
    run f (.dictLoop acc) s =
      .ok ⟨.Dictionary (ps.foldl (fun m kv => mapInsert m kv.1 kv.2) acc), r⟩ := by
  intro f s ps r hb
  induction hb with
  | nil f r =>
    intro acc
    rfl
  | cons f s k n1 v n2 ps r hkey hval hbody ih =>
    intro acc
    obtain ⟨c, rest, rfl, hc⟩ := run_rule_ok_shape f s ⟨.String k, n1⟩ hkey
    rw [show run (f + 1) (.dictLoop acc) (c :: rest) =
        (if c == 101 then .ok ⟨.Dictionary acc, rest⟩
        else
          match run f .rule (c :: rest) with
          | .ok key =>
            match run f .rule key.next with
            | .ok entry =>
              match key.value with
              | .String s2 => run f (.dictLoop (mapInsert acc s2 entry.value)) entry.next
              | _ => .err .InvalidFormat
            | e => e
          | e => e) from rfl]
    rw [if_neg (by simp [hc])]
    simp only [hkey, hval]
    rw [ih (mapInsert acc k v)]
    rfl

/-- Claim C7: decoding a dictionary token over any decodable pair body
succeeds (no duplicate-key error), and the resulting mapping holds, for
every key, exactly the value of that key's last occurrence in the input
(later occurrences replace earlier ones); its stored keys are pairwise
distinct, so there is exactly one entry per distinct key. -/
theorem c7_dict_mapping (f : Nat) (s : List Nat) (ps : List (List Nat × BencodeType))
    (r : List Nat) (hb : Body f s ps r) :
    run (f + 2) .rule (100 :: s) = .ok ⟨.Dictionary (dictOf ps), r⟩ ∧
    (∀ k, mapLookup (dictOf ps) k = lastVal ps k) ∧
    List.Pairwise (fun a b : List Nat × BencodeType => a.1 ≠ b.1) (dictOf ps) := by
  refine ⟨?_, ?_, ?_⟩
  · show run f (.dictLoop []) s = .ok ⟨.Dictionary (dictOf ps), r⟩
    rw [run_dictLoop_body f s ps r hb []]
    rfl
  · intro k
    rw [dictOf, mapLookup_foldl_insert]
    cases h : lastVal ps k with
    | some v => rfl
    | none => rfl
  · exact sortedPairs_pairwise_ne _ (sortedPairs_foldl_insert ps [] rfl)

theorem c7_witness :
    run 5 .rule [100, 49, 58, 97, 105, 49, 101, 49, 58, 97, 105, 50, 101, 101] =
      .ok ⟨.Dictionary [([97], .Integer 2)], []⟩ ∧
    mapLookup (dictOf [([97], .Integer 1), ([97], .Integer 2)]) [97] =
      some (.Integer 2) :=
  have hb : Body 3 [49, 58, 97, 105, 49, 101, 49, 58, 97, 105, 50, 101, 101]
      [([97], .Integer 1), ([97], .Integer 2)] [] :=
    Body.cons 2 _ [97] [105, 49, 101, 49, 58, 97, 105, 50, 101, 101] (.Integer 1)
      [49, 58, 97, 105, 50, 101, 101] _ [] rfl rfl
      (Body.cons 1 _ [97] [105, 50, 101, 101] (.Integer 2) [101] _ [] rfl rfl
        (Body.nil 0 []))
  ⟨(c7_dict_mapping 3 _ _ _ hb).1, (c7_dict_mapping 3 _ _ _ hb).2.1 [97]⟩

/-- Claim C8: whenever a key position of a dictionary decodes as a
non-String variant (and the following value token decodes), the whole
dictionary parse fails with the malformed-structure `InvalidFormat` error;
in particular the top-level decode of `"di1ei2ee"` fails with it. -/
theorem c8_nonstring_key_fails_format :
    parse [100, 105, 49, 101, 105, 50, 101, 101] = .err .InvalidFormat ∧
    (∀ f s acc kpr pr2, run f .rule s = .ok kpr →
      (∀ str, kpr.value ≠ .String str) → run f .rule kpr.next = .ok pr2 →
      run (f + 1) (.dictLoop acc) s = .err .InvalidFormat) := by
  refine ⟨rfl, ?_⟩
  intro f s acc kpr pr2 hkey hns hval
  obtain ⟨c, rest, rfl, hc⟩ := run_rule_ok_shape f s kpr hkey
  rw [show run (f + 1) (.dictLoop acc) (c :: rest) =
      (if c == 101 then .ok ⟨.Dictionary acc, rest⟩
      else
        match run f .rule (c :: rest) with
        | .ok key =>
          match run f .rule key.next with
          | .ok entry =>
            match key.value with
            | .String s2 => run f (.dictLoop (mapInsert acc s2 entry.value)) entry.next
            | _ => .err .InvalidFormat
          | e => e
        | e => e) from rfl]
  rw [if_neg (by simp [hc])]
  simp only [hkey, hval]

theorem c8_witness :
    run 3 (.dictLoop []) [105, 49, 101, 105, 50, 101, 101] = .err .InvalidFormat :=
  c8_nonstring_key_fails_format.2 2 [105, 49, 101, 105, 50, 101, 101] []
    ⟨.Integer 1, [105, 50, 101, 101]⟩ ⟨.Integer 2, [101]⟩ rfl
    (fun _ h => BencodeType.noConfusion h) rfl

mutual

/-- Every `Dictionary` node anywhere inside the value stores a strictly
key-sorted, duplicate-free association list (the `BTreeMap` invariant). -/
def keysOk : BencodeType → Bool
  | .Integer _ => true
  | .String _ => true
  | .List xs => keysOkList xs
  | .Dictionary m => sortedPairs m && keysOkPairs m

def keysOkList : List BencodeType → Bool
  | [] => true
  | x :: xs => keysOk x && keysOkList xs

def keysOkPairs : List (List Nat × BencodeType) → Bool
  | [] => true
  | (_, v2) :: rest => keysOk v2 && keysOkPairs rest

end

theorem keysOkList_append (xs : List BencodeType) (v : BencodeType)
    (h1 : keysOkList xs = true) (h2 : keysOk v = true) :
    keysOkList (xs ++ [v]) = true := by
  induction xs with
  | nil => simp [keysOkList, h2]
  | cons x rest ih =>
    simp only [keysOkList, Bool.and_eq_true] at h1
    simp only [List.cons_append, keysOkList, Bool.and_eq_true]
    exact ⟨h1.1, ih h1.2⟩

theorem keysOkPairs_mapInsert (m : List (List Nat × BencodeType)) (k : List Nat)
    (v : BencodeType) (hm : keysOkPairs m = true) (hv : keysOk v = true) :
    keysOkPairs (mapInsert m k v) = true := by
  induction m with
  | nil => simp [mapInsert, keysOkPairs, hv]
  | cons kv rest ih =>
    obtain ⟨k2, v2⟩ := kv
    simp only [keysOkPairs, Bool.and_eq_true] at hm
    simp only [mapInsert]
    split
    · simp only [keysOkPairs, Bool.and_eq_true]
      exact ⟨hv, hm.1, hm.2⟩
    · split
      · simp only [keysOkPairs, Bool.and_eq_true]
        exact ⟨hv, hm.2⟩
      · simp only [keysOkPairs, Bool.and_eq_true]
        exact ⟨hm.1, ih hm.2⟩

theorem parse_str_ok_value : ∀ s pr, parse_str s = .ok pr → keysOk pr.value = true := by
  intro s pr h
  unfold parse_str at h
  simp only [] at h
  split at h
  · exact RResult.noConfusion h
  · split at h
    · exact RResult.noConfusion h
    · split at h
      · split at h
        · exact RResult.noConfusion h
        · split at h
          · exact RResult.noConfusion h
          · split at h
            · have hv : pr.value = .String _ :=
                congrArg ParseResult.value (RResult.ok.inj h).symm
              rw [hv]
              rfl
            · exact RResult.noConfusion h
      · exact RResult.noConfusion h

theorem parse_int_ok_value : ∀ s pr, parse_int s = .ok pr → keysOk pr.value = true := by
  intro s pr h
  unfold parse_int at h
  simp only [] at h
  split at h
  · exact RResult.noConfusion h
  · split at h
    · exact RResult.noConfusion h
    · split at h
      · exact RResult.noConfusion h
      · split at h
        · exact RResult.noConfusion h
        · split at h
          · split at h
            · exact RResult.noConfusion h
            · have hv : pr.value = .Integer _ :=
                congrArg ParseResult.value (RResult.ok.inj h).symm
              rw [hv]
              rfl
          · exact RResult.noConfusion h

/-- Key-sortedness invariant, propagated through the whole recursive
descent: every value any mode of `run` returns satisfies `keysOk`, given
that the loop accumulators do. -/
theorem run_keysOk : ∀ f,
    (∀ s pr, run f .rule s = .ok pr → keysOk pr.value = true) ∧
    (∀ s pr, run f .plist s = .ok pr → keysOk pr.value = true) ∧
    (∀ s pr, run f .pdict s = .ok pr → keysOk pr.value = true) ∧
    (∀ s acc pr, keysOkList acc = true → run f (.listLoop acc) s = .ok pr →
      keysOk pr.value = true) ∧
    (∀ s acc pr, sortedPairs acc = true → keysOkPairs acc = true →
      run f (.dictLoop acc) s = .ok pr → keysOk pr.value = true) := by
  intro f
  induction f with
  | zero =>
    refine ⟨?_, ?_, ?_, ?_, ?_⟩
    · intro s pr h
      exact RResult.noConfusion h
    · intro s pr h
      exact RResult.noConfusion h
    · intro s pr h
      exact RResult.noConfusion h
    · intro s acc pr h1 h
      exact RResult.noConfusion h
    · intro s acc pr h1 h2 h
      exact RResult.noConfusion h
  | succ f ih =>
    refine ⟨?_, ?_, ?_, ?_, ?_⟩
    · intro s pr h
      match s with
      | [] => exact RResult.noConfusion h
      | c :: rest =>
        rw [show run (f + 1) .rule (c :: rest) =
            (if isDigit c then parse_str (c :: rest)
            else if c == 105 then parse_int (c :: rest)
            else if c == 108 then run f .plist (c :: rest)
            else if c == 100 then run f .pdict (c :: rest)
            else .err .InvalidFormat) from rfl] at h
        split at h
        · exact parse_str_ok_value _ _ h
        · split at h
          · exact parse_int_ok_value _ _ h
          · split at h
            · exact ih.2.1 _ _ h
            · split at h
              · exact ih.2.2.1 _ _ h
              · exact RResult.noConfusion h
    · intro s pr h
      rw [show run (f + 1) .plist s =
          (match position (fun x => x == 108) s with
          | none => .err .InvalidFormat
          | some i =>
            if i != 0 then .err .BufferTooShort
            else run f (.listLoop []) (s.drop 1)) from rfl] at h
      split at h
      · exact RResult.noConfusion h
      · split at h
        · exact RResult.noConfusion h
        · exact ih.2.2.2.1 (s.drop 1) [] pr rfl h
    · intro s pr h
      rw [show run (f + 1) .pdict s =
          (match position (fun x => x == 100) s with
          | none => .err .InvalidFormat
          | some i =>
            if i != 0 then .err .BufferTooShort
            else run f (.dictLoop []) (s.drop 1)) from rfl] at h
      split at h
      · exact RResult.noConfusion h
      · split at h
        · exact RResult.noConfusion h
        · exact ih.2.2.2.2 (s.drop 1) [] pr rfl rfl h
    · intro s acc pr hacc h
      match s with
      | [] => exact RResult.noConfusion h
      | c :: rest =>
        rw [show run (f + 1) (.listLoop acc) (c :: rest) =
            (if c == 101 then .ok ⟨.List acc, rest⟩
            else
              match run f .rule (c :: rest) with
              | .ok entry => run f (.listLoop (acc ++ [entry.value])) entry.next
              | e => e) from rfl] at h
        split at h
        · have hv : pr.value = .List acc :=
            congrArg ParseResult.value (RResult.ok.inj h).symm
          rw [hv]
          show keysOkList acc = true
          exact hacc
        · split at h
          · rename_i entry hentry
            exact ih.2.2.2.1 _ _ _
              (keysOkList_append acc entry.value hacc (ih.1 _ _ hentry)) h
          · rename_i e hne
            rw [h] at hne
            exact absurd rfl (hne pr)
    · intro s acc pr hsort hpairs h
      match s with
      | [] => exact RResult.noConfusion h
      | c :: rest =>
        rw [show run (f + 1) (.dictLoop acc) (c :: rest) =
            (if c == 101 then .ok ⟨.Dictionary acc, rest⟩
            else
              match run f .rule (c :: rest) with
              | .ok key =>
                match run f .rule key.next with
                | .ok entry =>
                  match key.value with
                  | .String s2 => run f (.dictLoop (mapInsert acc s2 entry.value)) entry.next
                  | _ => .err .InvalidFormat
                | e => e
              | e => e) from rfl] at h
        split at h
        · have hv : pr.value = .Dictionary acc :=
            congrArg ParseResult.value (RResult.ok.inj h).symm
          rw [hv]
          show (sortedPairs acc && keysOkPairs acc) = true
          simp [hsort, hpairs]
        · split at h
          · rename_i key hkey
            split at h
            · rename_i entry hentry
              split at h
              · exact ih.2.2.2.2 _ _ _
                  (sortedPairs_mapInsert acc _ entry.value hsort)
                  (keysOkPairs_mapInsert acc _ entry.value hpairs (ih.1 _ _ hentry)) h
              · exact RResult.noConfusion h
            · rename_i e hne
              rw [h] at hne
              exact absurd rfl (hne pr)
          · rename_i e hne
            rw [h] at hne
            exact absurd rfl (hne pr)

/-- Claim C10: every value produced by the top-level decode satisfies the
key-sortedness invariant: every `Dictionary` node in the decoded tree,
however deeply nested, stores its entries with pairwise `lexLt`-increasing
(hence duplicate-free) keys, regardless of the input's key order. -/
theorem c10_decoded_dicts_sorted : ∀ s v, parse s = .ok v → keysOk v = true := by
  intro s v h
  unfold parse at h
  split at h
  · rename_i r hr
    split at h
    · have hv : v = r.value := (PResult.ok.inj h).symm
      rw [hv]
      exact (run_keysOk (3 * s.length + 3)).1 s r hr
    · exact PResult.noConfusion h
  · exact PResult.noConfusion h
  · exact PResult.noConfusion h
  · exact PResult.noConfusion h

theorem c10_witness :
    parse [100, 49, 58, 98, 105, 49, 101, 49, 58, 97, 105, 50, 101, 101] =
      .ok (.Dictionary [([97], .Integer 2), ([98], .Integer 1)]) ∧
    keysOk (.Dictionary [([97], .Integer 2), ([98], .Integer 1)]) = true :=
  ⟨rfl, c10_decoded_dicts_sorted
    [100, 49, 58, 98, 105, 49, 101, 49, 58, 97, 105, 50, 101, 101]
    (.Dictionary [([97], .Integer 2), ([98], .Integer 1)]) rfl⟩

example : parse_int [105, 49, 50, 51, 52, 53, 101] = .ok ⟨.Integer 12345, []⟩ := rfl
example : parse_int [105, 45, 55, 101] = .ok ⟨.Integer (-7), []⟩ := rfl
example : parse_int [105, 49, 50, 51] = .err .InvalidFormat := rfl
example : parse_int [105, 101] = .err .BufferTooShort := rfl
example : parse_str [51, 58, 97, 98, 99, 100] = .ok ⟨.String [97, 98, 99], [100]⟩ := rfl
example : parse_str [53, 58, 97, 98, 99] = .panic := rfl
example : parse_str [48, 58] = .err .InvalidFormat := rfl
example : parse_int [105, 43, 53, 101] = .ok ⟨.Integer 5, []⟩ := rfl
example : parse_str [49, 58, 200] = .err .BufferTooShort := rfl

end Bencode
